import Mathlib

/-!
# NeonCrypt message ledger — shallow embedding and verification

Shallow embedding of `src/contracts/NeonCrypt.sol` (contract `NeonCrypt`).
Addresses and ciphertext handles are modelled as `Nat`; Solidity's
`mapping` is a total function with the zero struct as default, exactly as
in the EVM.  `block.timestamp` and `msg.sender` are explicit parameters.
`require` failures (reverts) are `Except.error`; a revert discards every
partial state change, so failing branches return no state.  The
`FHE.fromExternal` conversion is an external Ciphertext Authority call
that the ledger treats as opaque; it is modelled as a pass-through of the
handle (its deeper failures are out of scope per the spec).  The
`FHE.allowThis`/`FHE.allow` capability grants are authorization side
effects outside ledger state and are not part of the state.
Solidity 0.8 checked arithmetic means `_totalMessages++` can never wrap;
`Nat` models this faithfully.
-/

namespace NeonCryptLedger

/-- `struct Message` of the contract: encrypted content handle,
`block.timestamp` at submission, sender address, and the active flag. -/
structure Message where
  encryptedContent : Nat
  timestamp : Nat
  sender : Nat
  isActive : Bool
deriving DecidableEq, Repr

/-- The EVM zero value of `struct Message`, returned by a Solidity
mapping at any unset key. -/
def Message.zero : Message :=
  { encryptedContent := 0, timestamp := 0, sender := 0, isActive := false }

/-- Events emitted by the contract (`MessageSubmitted`, `MessageDeleted`). -/
inductive Event where
  | MessageSubmitted (sender : Nat) (messageId : Nat) (timestamp : Nat)
  | MessageDeleted (sender : Nat) (messageId : Nat)
deriving DecidableEq, Repr

/-- Revert reasons of the contract, named after the spec's error taxonomy.
The source `require` strings map one-to-one:
`"Input proof cannot be empty"` → `InvalidProof`;
`"Message does not exist"` → `NotFound`;
`"Not message owner"` → `Unauthorized`;
`"Message already deleted"` → `AlreadyDeleted`. -/
inductive LedgerError where
  | InvalidProof
  | NotFound
  | Unauthorized
  | AlreadyDeleted
deriving DecidableEq, Repr

/-- The contract's storage plus its (append-only) event log:
`_totalMessages`, `_messages`, `_userMessages`. -/
structure NeonCrypt where
  totalMessages : Nat
  messages : Nat → Message
  userMessages : Nat → List Nat
  events : List Event

/-- The freshly deployed contract: all storage zero-initialised. -/
def NeonCrypt.init : NeonCrypt :=
  { totalMessages := 0
    messages := fun _ => Message.zero
    userMessages := fun _ => []
    events := [] }

/-- `submitMessage(externalEuint32 encryptedContent, bytes calldata inputProof)`.
Caller (`msg.sender`) and `block.timestamp` are explicit parameters.
Returns the assigned message id (observable through the emitted
`MessageSubmitted` event; the spec signature is `create(...) → id`)
together with the post state. -/
def submitMessage (s : NeonCrypt) (sender : Nat) (timestamp : Nat)
    (encryptedContent : Nat) (inputProof : List Nat) :
    Except LedgerError (Nat × NeonCrypt) :=
  if inputProof.length > 0 then
    let content := encryptedContent
    let messageId := s.totalMessages
    Except.ok (messageId,
      { totalMessages := s.totalMessages + 1
        messages := fun i =>
          if i = messageId then
            { encryptedContent := content
              timestamp := timestamp
              sender := sender
              isActive := true }
          else s.messages i
        userMessages := fun u =>
          if u = sender then s.userMessages u ++ [messageId]
          else s.userMessages u
        events := s.events ++ [Event.MessageSubmitted sender messageId timestamp] })
  else
    Except.error LedgerError.InvalidProof

/-- `getMessage(uint256 messageId)`: point lookup, read-only. -/
def getMessage (s : NeonCrypt) (messageId : Nat) :
    Except LedgerError (Nat × Nat × Nat × Bool) :=
  if messageId < s.totalMessages then
    let m := s.messages messageId
    Except.ok (m.encryptedContent, m.timestamp, m.sender, m.isActive)
  else
    Except.error LedgerError.NotFound

/-- `getUserMessages(address user)`: the owner's full id index. -/
def getUserMessages (s : NeonCrypt) (user : Nat) : List Nat :=
  s.userMessages user

/-- `getMessageCount(address user)`: length of the owner's index. -/
def getMessageCount (s : NeonCrypt) (user : Nat) : Nat :=
  (s.userMessages user).length

/-- `getUserMessageMetadata(address user)`: fills three parallel arrays,
position `i` taken from record `userMsgIds[i]`. -/
def getUserMessageMetadata (s : NeonCrypt) (user : Nat) :
    List Nat × List Nat × List Bool :=
  let userMsgIds := s.userMessages user
  (userMsgIds.map fun msgId => (s.messages msgId).timestamp,
   userMsgIds.map fun msgId => msgId,
   userMsgIds.map fun msgId => (s.messages msgId).isActive)

/-- `getTotalMessages()`. -/
def getTotalMessages (s : NeonCrypt) : Nat :=
  s.totalMessages

/-- The loop body of `getMessagesBatch`: each iteration checks
`require(msgId < _totalMessages)` and fills one row; a failing check
reverts the whole call, discarding partial rows. -/
def getMessagesBatchGo (s : NeonCrypt) :
    List Nat → Except LedgerError (List Nat × List Nat × List Bool)
  | [] => Except.ok ([], [], [])
  | msgId :: rest =>
    if msgId < s.totalMessages then
      match getMessagesBatchGo s rest with
      | Except.ok (ts, sd, ac) =>
          Except.ok ((s.messages msgId).timestamp :: ts,
                     (s.messages msgId).sender :: sd,
                     (s.messages msgId).isActive :: ac)
      | Except.error e => Except.error e
    else
      Except.error LedgerError.NotFound

/-- `getMessagesBatch(uint256[] calldata messageIds)`: all-or-nothing
batch read. -/
def getMessagesBatch (s : NeonCrypt) (messageIds : List Nat) :
    Except LedgerError (List Nat × List Nat × List Bool) :=
  getMessagesBatchGo s messageIds

/-- `deleteMessage(uint256 messageId)`: soft delete, owner only.
The three `require`s fire in source order. -/
def deleteMessage (s : NeonCrypt) (caller : Nat) (messageId : Nat) :
    Except LedgerError NeonCrypt :=
  if messageId < s.totalMessages then
    let m := s.messages messageId
    if m.sender = caller then
      if m.isActive then
        Except.ok
          { s with
            messages := fun i =>
              if i = messageId then { m with isActive := false }
              else s.messages i
            events := s.events ++ [Event.MessageDeleted caller messageId] }
      else Except.error LedgerError.AlreadyDeleted
    else Except.error LedgerError.Unauthorized
  else Except.error LedgerError.NotFound

/-- `isMessageActive(uint256 messageId)`: non-throwing probe. -/
def isMessageActive (s : NeonCrypt) (messageId : Nat) : Bool × Bool :=
  if s.totalMessages ≤ messageId then (false, false)
  else (true, (s.messages messageId).isActive)

/-! ## Transition system

The only state-mutating entry points are `submitMessage` and
`deleteMessage` (every other operation is a `view` function returning no
state).  `Step` relates a state to a possible successor; `Reachable`
closes it from the freshly deployed contract. -/

/-- One successful mutating call. -/
inductive Step : NeonCrypt → NeonCrypt → Prop where
  | submit (s : NeonCrypt) (sender timestamp encryptedContent : Nat)
      (inputProof : List Nat) (messageId : Nat) (s' : NeonCrypt) :
      submitMessage s sender timestamp encryptedContent inputProof
        = Except.ok (messageId, s') → Step s s'
  | delete (s : NeonCrypt) (caller messageId : Nat) (s' : NeonCrypt) :
      deleteMessage s caller messageId = Except.ok s' → Step s s'

/-- States reachable from the freshly deployed contract by successful
mutating calls (failed calls revert and leave the state unchanged). -/
inductive Reachable : NeonCrypt → Prop where
  | init : Reachable NeonCrypt.init
  | step {s s' : NeonCrypt} : Reachable s → Step s s' → Reachable s'

/-! ## Sequences of create calls (for the monotonic-id property) -/

/-- One `submitMessage` request: caller, `block.timestamp`, content
handle, proof blob. -/
structure CreateReq where
  sender : Nat
  timestamp : Nat
  content : Nat
  proof : List Nat

/-- Run a sequence of `submitMessage` calls; a failed call reverts and
leaves the state unchanged. -/
def runCreates (s : NeonCrypt) : List CreateReq → NeonCrypt
  | [] => s
  | r :: rs =>
    match submitMessage s r.sender r.timestamp r.content r.proof with
    | Except.ok (_, s') => runCreates s' rs
    | Except.error _ => runCreates s rs

/-- The ids assigned by the successful calls of the sequence, in call
order. -/
def assignedIds (s : NeonCrypt) : List CreateReq → List Nat
  | [] => []
  | r :: rs =>
    match submitMessage s r.sender r.timestamp r.content r.proof with
    | Except.ok (messageId, s') => messageId :: assignedIds s' rs
    | Except.error _ => assignedIds s rs

/-- Run one `deleteMessage` call; a failed call reverts and leaves the
state unchanged (EVM semantics). -/
def afterDelete (s : NeonCrypt) (caller messageId : Nat) : NeonCrypt :=
  match deleteMessage s caller messageId with
  | Except.ok s' => s'
  | Except.error _ => s

/-! ## Concrete example states (used by witnesses) -/

/-- Owner 7 submits content 42 at time 100 with proof `[1]`. -/
def exReq1 : CreateReq := ⟨7, 100, 42, [1]⟩

/-- Owner 8 submits content 43 at time 200 with proof `[2, 3]`. -/
def exReq2 : CreateReq := ⟨8, 200, 43, [2, 3]⟩

/-- Owner 7 submits content 44 at time 300 with proof `[5]`. -/
def exReq3 : CreateReq := ⟨7, 300, 44, [5]⟩

/-- State after one successful create (ids: 0 owned by 7). -/
def exS1 : NeonCrypt := runCreates NeonCrypt.init [exReq1]

/-- State after three successful creates (ids: 0, 2 owned by 7; 1 by 8). -/
def exS3 : NeonCrypt := runCreates NeonCrypt.init [exReq1, exReq2, exReq3]

/-- `exS3` after owner 7 soft-deletes record 0. -/
def exS4 : NeonCrypt := afterDelete exS3 7 0

lemma reachable_exS1 : Reachable exS1 :=
  Reachable.step Reachable.init (Step.submit _ 7 100 42 [1] 0 _ rfl)

lemma reachable_exS3 : Reachable exS3 :=
  Reachable.step
    (Reachable.step reachable_exS1 (Step.submit _ 8 200 43 [2, 3] 1 _ rfl))
    (Step.submit _ 7 300 44 [5] 2 _ rfl)

lemma deleteMessage_exS3 : deleteMessage exS3 7 0 = Except.ok exS4 := rfl

lemma reachable_exS4 : Reachable exS4 :=
  Reachable.step reachable_exS3 (Step.delete _ 7 0 _ deleteMessage_exS3)

/-! ## Claim theorems -/

/-- C5: a `submitMessage` call with an empty proof blob fails with
`InvalidProof` and leaves the ledger state completely unchanged —
`totalMessages`, the record store, every owner index, and the event log
(the state equality `runCreates s [r] = s` covers all four at once). -/
theorem create_empty_proof_rejected_atomically
    (s : NeonCrypt) (sender timestamp encryptedContent : Nat)
    (inputProof : List Nat) (h : inputProof.length = 0) :
    submitMessage s sender timestamp encryptedContent inputProof
      = Except.error LedgerError.InvalidProof ∧
    runCreates s [⟨sender, timestamp, encryptedContent, inputProof⟩] = s := by
  have hne : ¬ inputProof.length > 0 := by omega
  refine ⟨?_, ?_⟩
  · simp [submitMessage, hne]
  · simp [runCreates, submitMessage, hne]

/-- C5 witness: the empty-proof create fails on `exS1` and leaves it
unchanged. -/
theorem create_empty_proof_rejected_atomically_witness :
    submitMessage exS1 9 400 50 [] = Except.error LedgerError.InvalidProof ∧
    runCreates exS1 [⟨9, 400, 50, []⟩] = exS1 :=
  create_empty_proof_rejected_atomically exS1 9 400 50 [] rfl

/-- C6: `getMessage` succeeds exactly when `messageId < totalMessages`,
returning the stored record's fields verbatim, and fails with `NotFound`
otherwise.  It is a `view` function: in the embedding it returns no
state, matching the source's read-only declaration. -/
theorem getMessage_contract (s : NeonCrypt) (messageId : Nat) :
    (messageId < s.totalMessages →
      getMessage s messageId = Except.ok
        ((s.messages messageId).encryptedContent,
         (s.messages messageId).timestamp,
         (s.messages messageId).sender,
         (s.messages messageId).isActive)) ∧
    (s.totalMessages ≤ messageId →
      getMessage s messageId = Except.error LedgerError.NotFound) := by
  refine ⟨fun h => ?_, fun h => ?_⟩
  · simp [getMessage, h]
  · simp [getMessage, Nat.not_lt.mpr h]

/-- C6 witness: in-range and out-of-range lookups on a concrete state. -/
theorem getMessage_contract_witness :
    getMessage exS1 0 = Except.ok (42, 100, 7, true) ∧
    getMessage exS1 5 = Except.error LedgerError.NotFound :=
  ⟨(getMessage_contract exS1 0).1 (by decide),
   (getMessage_contract exS1 5).2 (by decide)⟩

/-- C2: `deleteMessage` checks its preconditions in source order —
`NotFound` when the id is out of range, else `Unauthorized` when the
caller is not the record's owner, else `AlreadyDeleted` when the record
is inactive — and otherwise succeeds, clearing the active flag; after a
success, `isMessageActive` answers `(true, false)`, a repeat delete by
the owner fails with `AlreadyDeleted`, and any non-owner's delete still
fails with `Unauthorized`. -/
theorem deleteMessage_contract (s : NeonCrypt) (caller messageId : Nat) :
    (s.totalMessages ≤ messageId →
      deleteMessage s caller messageId = Except.error LedgerError.NotFound) ∧
    (messageId < s.totalMessages → (s.messages messageId).sender ≠ caller →
      deleteMessage s caller messageId = Except.error LedgerError.Unauthorized) ∧
    (messageId < s.totalMessages → (s.messages messageId).sender = caller →
      (s.messages messageId).isActive = false →
      deleteMessage s caller messageId = Except.error LedgerError.AlreadyDeleted) ∧
    (messageId < s.totalMessages → (s.messages messageId).sender = caller →
      (s.messages messageId).isActive = true →
      ∃ s', deleteMessage s caller messageId = Except.ok s' ∧
        (s'.messages messageId).isActive = false ∧
        isMessageActive s' messageId = (true, false) ∧
        deleteMessage s' caller messageId = Except.error LedgerError.AlreadyDeleted ∧
        ∀ other, other ≠ caller →
          deleteMessage s' other messageId = Except.error LedgerError.Unauthorized) := by
  refine ⟨fun h => ?_, fun h hown => ?_, fun h hown hact => ?_, fun h hown hact => ?_⟩
  · simp [deleteMessage, Nat.not_lt.mpr h]
  · simp [deleteMessage, h, hown]
  · simp [deleteMessage, h, hown, hact]
  · refine ⟨{ s with
        messages := fun i =>
          if i = messageId then { s.messages messageId with isActive := false }
          else s.messages i
        events := s.events ++ [Event.MessageDeleted caller messageId] },
      ?_, ?_, ?_, ?_, ?_⟩
    · simp [deleteMessage, h, hown, hact]
    · simp
    · simp [isMessageActive, Nat.not_le.mpr h]
    · simp [deleteMessage, h, hown]
    · intro other hne
      simp [deleteMessage, h, hown, Ne.symm hne]

/-- C2 witness: on the three-record state `exS3`, a non-owner's delete of
record 0 fails `Unauthorized`, an out-of-range delete fails `NotFound`,
and after owner 7's successful delete the probe answers `(true, false)`
and a repeat delete fails `AlreadyDeleted`. -/
theorem deleteMessage_contract_witness :
    deleteMessage exS3 9 0 = Except.error LedgerError.Unauthorized ∧
    deleteMessage exS3 7 5 = Except.error LedgerError.NotFound ∧
    isMessageActive exS4 0 = (true, false) ∧
    deleteMessage exS4 7 0 = Except.error LedgerError.AlreadyDeleted := by
  obtain ⟨s', hok, hflag, hprobe, hsecond, hother⟩ :=
    (deleteMessage_contract exS3 7 0).2.2.2 (by decide) (by decide) (by decide)
  have hs' : s' = exS4 := by
    have h := deleteMessage_exS3
    rw [hok] at h
    exact Except.ok.inj h
  exact ⟨(deleteMessage_contract exS3 9 0).2.1 (by decide) (by decide),
    (deleteMessage_contract exS3 7 5).1 (by decide),
    hs' ▸ hprobe, hs' ▸ hsecond⟩

/-- Helper: when every id of the batch is in range, the loop fills the
three rows in input order. -/
lemma getMessagesBatchGo_all_valid (s : NeonCrypt) (ids : List Nat)
    (h : ∀ id ∈ ids, id < s.totalMessages) :
    getMessagesBatchGo s ids = Except.ok
      (ids.map fun id => (s.messages id).timestamp,
       ids.map fun id => (s.messages id).sender,
       ids.map fun id => (s.messages id).isActive) := by
  induction ids with
  | nil => rfl
  | cons a rest ih =>
    have ha : a < s.totalMessages := h a (List.mem_cons_self a rest)
    have hrest : ∀ id ∈ rest, id < s.totalMessages :=
      fun id hid => h id (List.mem_cons_of_mem a hid)
    simp [getMessagesBatchGo, ha, ih hrest]

/-- Helper: any out-of-range id anywhere in the batch reverts the whole
call with `NotFound`. -/
lemma getMessagesBatchGo_invalid (s : NeonCrypt) (ids : List Nat)
    (h : ¬ ∀ id ∈ ids, id < s.totalMessages) :
    getMessagesBatchGo s ids = Except.error LedgerError.NotFound := by
  induction ids with
  | nil => exact absurd (by simp) h
  | cons a rest ih =>
    by_cases ha : a < s.totalMessages
    · have hrest : ¬ ∀ id ∈ rest, id < s.totalMessages := by
        intro hall
        refine h ?_
        intro id hid
        rcases List.mem_cons.mp hid with h1 | h2
        · exact h1 ▸ ha
        · exact hall id h2
      simp [getMessagesBatchGo, ha, ih hrest]
    · simp [getMessagesBatchGo, ha]

/-- Helper: indexing a mapped list at an in-range position. -/
lemma getD_map_of_lt {β : Type} (f : Nat → β) (l : List Nat) (i : Nat)
    (h : i < l.length) (d : β) :
    (l.map f).getD i d = f (l.getD i 0) := by
  induction l generalizing i with
  | nil => simp at h
  | cons a rest ih =>
    cases i with
    | zero => rfl
    | succ n =>
      simp only [List.map_cons, List.getD_cons_succ]
      exact ih n (by simpa using h)

/-- C3: `getMessagesBatch` is all-or-nothing — any out-of-range id makes
the whole call fail with `NotFound` and no partial rows, while a batch of
valid ids returns three rows per input position, in input order (so
duplicate inputs yield duplicate, consistent rows), and the empty batch
returns three empty sequences. -/
theorem getMessagesBatch_all_or_nothing (s : NeonCrypt) (messageIds : List Nat) :
    (¬ (∀ id ∈ messageIds, id < s.totalMessages) →
      getMessagesBatch s messageIds = Except.error LedgerError.NotFound) ∧
    ((∀ id ∈ messageIds, id < s.totalMessages) →
      getMessagesBatch s messageIds = Except.ok
        (messageIds.map fun id => (s.messages id).timestamp,
         messageIds.map fun id => (s.messages id).sender,
         messageIds.map fun id => (s.messages id).isActive) ∧
      (messageIds.map fun id => (s.messages id).timestamp).length
          = messageIds.length ∧
      (messageIds.map fun id => (s.messages id).sender).length
          = messageIds.length ∧
      (messageIds.map fun id => (s.messages id).isActive).length
          = messageIds.length ∧
      ∀ i, i < messageIds.length →
        (messageIds.map fun id => (s.messages id).timestamp).getD i 0
            = (s.messages (messageIds.getD i 0)).timestamp ∧
        (messageIds.map fun id => (s.messages id).sender).getD i 0
            = (s.messages (messageIds.getD i 0)).sender ∧
        (messageIds.map fun id => (s.messages id).isActive).getD i false
            = (s.messages (messageIds.getD i 0)).isActive) ∧
    getMessagesBatch s [] = Except.ok ([], [], []) := by
  refine ⟨fun h => getMessagesBatchGo_invalid s messageIds h,
    fun h => ⟨getMessagesBatchGo_all_valid s messageIds h, by simp, by simp, by simp,
      fun i hi => ⟨getD_map_of_lt _ _ _ hi _, getD_map_of_lt _ _ _ hi _,
        getD_map_of_lt _ _ _ hi _⟩⟩,
    rfl⟩

/-- C3 witness: on `exS3` (three records) a batch with a duplicate id
succeeds row-for-row, a batch containing the invalid id 3 fails whole,
and the empty batch returns empty rows. -/
theorem getMessagesBatch_all_or_nothing_witness :
    getMessagesBatch exS3 [0, 2, 0]
      = Except.ok ([100, 300, 100], [7, 7, 7], [true, true, true]) ∧
    getMessagesBatch exS3 [0, 3] = Except.error LedgerError.NotFound ∧
    getMessagesBatch exS3 [] = Except.ok ([], [], []) :=
  ⟨((getMessagesBatch_all_or_nothing exS3 [0, 2, 0]).2.1 (by decide)).1,
   (getMessagesBatch_all_or_nothing exS3 [0, 3]).1 (by decide),
   (getMessagesBatch_all_or_nothing exS3 []).2.2⟩

/-- C9: a successful `deleteMessage` changes nothing but the one record's
active flag — its content handle, timestamp and owner survive, every
other record, every owner index, and `totalMessages` are untouched. -/
theorem deleteMessage_frame (s : NeonCrypt) (caller messageId : Nat)
    (s' : NeonCrypt) (h : deleteMessage s caller messageId = Except.ok s') :
    s'.totalMessages = s.totalMessages ∧
    (s'.messages messageId).encryptedContent
        = (s.messages messageId).encryptedContent ∧
    (s'.messages messageId).timestamp = (s.messages messageId).timestamp ∧
    (s'.messages messageId).sender = (s.messages messageId).sender ∧
    (s'.messages messageId).isActive = false ∧
    (∀ j, j ≠ messageId → s'.messages j = s.messages j) ∧
    ∀ u, s'.userMessages u = s.userMessages u := by
  simp only [deleteMessage] at h
  split at h
  · split at h
    · split at h
      · injection h with h2
        subst h2
        exact ⟨rfl, by simp, by simp, by simp, by simp,
          fun j hj => by simp [hj], fun u => rfl⟩
      · exact Except.noConfusion h
    · exact Except.noConfusion h
  · exact Except.noConfusion h

/-- C9 witness: the frame conditions evaluated on the concrete delete
`exS3 → exS4`. -/
theorem deleteMessage_frame_witness :
    exS4.totalMessages = exS3.totalMessages ∧
    (exS4.messages 0).encryptedContent = (exS3.messages 0).encryptedContent ∧
    (exS4.messages 0).timestamp = (exS3.messages 0).timestamp ∧
    (exS4.messages 0).sender = (exS3.messages 0).sender ∧
    (exS4.messages 0).isActive = false ∧
    exS4.messages 1 = exS3.messages 1 ∧
    exS4.userMessages 7 = exS3.userMessages 7 := by
  obtain ⟨h1, h2, h3, h4, h5, h6, h7⟩ :=
    deleteMessage_frame exS3 7 0 exS4 deleteMessage_exS3
  exact ⟨h1, h2, h3, h4, h5, h6 1 (by decide), h7 7⟩

/-- C10: a soft-deleted record stays fully readable — `getMessage`
(which takes no caller at all, so no caller-dependence is possible)
still returns the original content handle, timestamp and owner with
`isActive = false`; a batch read of it succeeds; and its id is still
listed in the metadata id column wherever the index lists it. -/
theorem softDeleted_still_readable (s : NeonCrypt) (messageId : Nat)
    (h1 : messageId < s.totalMessages)
    (h2 : (s.messages messageId).isActive = false) :
    getMessage s messageId = Except.ok
      ((s.messages messageId).encryptedContent,
       (s.messages messageId).timestamp,
       (s.messages messageId).sender, false) ∧
    getMessagesBatch s [messageId] = Except.ok
      ([(s.messages messageId).timestamp],
       [(s.messages messageId).sender], [false]) ∧
    ∀ o, messageId ∈ getUserMessages s o →
      messageId ∈ (getUserMessageMetadata s o).2.1 := by
  refine ⟨by simp [getMessage, h1, h2], ?_, ?_⟩
  · simp [getMessagesBatch, getMessagesBatchGo, h1, h2]
  · intro o ho
    simpa [getUserMessageMetadata, getUserMessages] using ho

/-- C10 witness: after the delete of record 0, it is still readable with
its original fields and still listed for owner 7. -/
theorem softDeleted_still_readable_witness :
    getMessage exS4 0 = Except.ok (42, 100, 7, false) ∧
    getMessagesBatch exS4 [0] = Except.ok ([100], [7], [false]) ∧
    0 ∈ (getUserMessageMetadata exS4 7).2.1 := by
  obtain ⟨hget, hbatch, hmd⟩ :=
    softDeleted_still_readable exS4 0 (by decide) (by decide)
  exact ⟨hget, hbatch, hmd 7 (by decide)⟩

/-- Helper: inversion of a successful `submitMessage` — the assigned id
is the pre-call counter and the post state is the pre state with the new
record stored, the caller's index extended, and the event appended. -/
lemma submitMessage_ok_inv {s : NeonCrypt}
    {sender timestamp encryptedContent : Nat} {inputProof : List Nat}
    {messageId : Nat} {s' : NeonCrypt}
    (h : submitMessage s sender timestamp encryptedContent inputProof
      = Except.ok (messageId, s')) :
    messageId = s.totalMessages ∧
    s'.totalMessages = s.totalMessages + 1 ∧
    s'.messages = (fun i =>
      if i = s.totalMessages then
        ⟨encryptedContent, timestamp, sender, true⟩
      else s.messages i) ∧
    s'.userMessages = (fun u =>
      if u = sender then s.userMessages u ++ [s.totalMessages]
      else s.userMessages u) ∧
    s'.events = s.events
      ++ [Event.MessageSubmitted sender s.totalMessages timestamp] ∧
    inputProof.length > 0 := by
  simp only [submitMessage] at h
  split at h
  next hp =>
    injection h with h2
    obtain ⟨h3, h4⟩ := Prod.mk.inj h2
    subst h3
    subst h4
    exact ⟨rfl, rfl, rfl, rfl, rfl, hp⟩
  next => exact Except.noConfusion h

/-- Helper: inversion of a successful `deleteMessage` — all three
preconditions held and the post state only clears the one active flag
and appends the event. -/
lemma deleteMessage_ok_inv {s : NeonCrypt} {caller messageId : Nat}
    {s' : NeonCrypt} (h : deleteMessage s caller messageId = Except.ok s') :
    messageId < s.totalMessages ∧
    (s.messages messageId).sender = caller ∧
    (s.messages messageId).isActive = true ∧
    s'.totalMessages = s.totalMessages ∧
    s'.messages = (fun i =>
      if i = messageId then { s.messages messageId with isActive := false }
      else s.messages i) ∧
    s'.userMessages = s.userMessages ∧
    s'.events = s.events ++ [Event.MessageDeleted caller messageId] := by
  simp only [deleteMessage] at h
  split at h
  next hlt =>
    split at h
    next hown =>
      split at h
      next hact =>
        injection h with h2
        subst h2
        exact ⟨hlt, hown, hact, rfl, rfl, rfl, rfl⟩
      next => exact Except.noConfusion h
    next => exact Except.noConfusion h
  next => exact Except.noConfusion h

/-- The per-owner index invariant every mutating call maintains: an id
sits in owner `o`'s index exactly when it is an existing record whose
stored sender is `o`, and each index is strictly increasing (hence in
creation order and duplicate-free). -/
def OwnershipInv (s : NeonCrypt) : Prop :=
  ∀ o : Nat,
    (∀ id, id ∈ s.userMessages o ↔
      id < s.totalMessages ∧ (s.messages id).sender = o) ∧
    (s.userMessages o).Sorted (· < ·)

lemma ownershipInv_init : OwnershipInv NeonCrypt.init := by
  intro o
  constructor
  · intro id
    simp [NeonCrypt.init]
  · simp [NeonCrypt.init]

lemma ownershipInv_submit {s : NeonCrypt}
    {sender timestamp encryptedContent : Nat} {inputProof : List Nat}
    {messageId : Nat} {s' : NeonCrypt}
    (hok : submitMessage s sender timestamp encryptedContent inputProof
      = Except.ok (messageId, s'))
    (hinv : OwnershipInv s) : OwnershipInv s' := by
  obtain ⟨hmid, htot, hmsg, husr, -, -⟩ := submitMessage_ok_inv hok
  have hbound : ∀ o id, id ∈ s.userMessages o → id < s.totalMessages :=
    fun o id h => ((hinv o).1 id |>.mp h).1
  intro o
  refine ⟨fun id => ?_, ?_⟩
  · simp only [husr, htot, hmsg]
    by_cases ho : o = sender
    · subst ho
      rw [if_pos rfl, List.mem_append, List.mem_singleton]
      by_cases hid : id = s.totalMessages
      · subst hid
        rw [if_pos rfl]
        exact ⟨fun _ => ⟨Nat.lt_succ_self _, rfl⟩, fun _ => Or.inr rfl⟩
      · rw [if_neg hid, (hinv o).1 id]
        constructor
        · rintro (⟨hlt, hs2⟩ | hbad)
          · exact ⟨by omega, hs2⟩
          · exact absurd hbad hid
        · rintro ⟨hlt, hs2⟩
          exact Or.inl ⟨by omega, hs2⟩
    · rw [if_neg ho, (hinv o).1 id]
      by_cases hid : id = s.totalMessages
      · subst hid
        rw [if_pos rfl]
        constructor
        · rintro ⟨hlt, -⟩
          exact absurd hlt (lt_irrefl _)
        · rintro ⟨-, hs2⟩
          exact absurd hs2.symm ho
      · rw [if_neg hid]
        constructor
        · rintro ⟨hlt, hs2⟩
          exact ⟨by omega, hs2⟩
        · rintro ⟨hlt, hs2⟩
          exact ⟨by omega, hs2⟩
  · simp only [husr]
    by_cases ho : o = sender
    · subst ho
      rw [if_pos rfl]
      refine List.pairwise_append.mpr
        ⟨(hinv o).2, List.sorted_singleton _, ?_⟩
      intro x hx y hy
      rw [List.mem_singleton.mp hy]
      exact hbound o x hx
    · rw [if_neg ho]
      exact (hinv o).2

lemma ownershipInv_delete {s : NeonCrypt} {caller messageId : Nat}
    {s' : NeonCrypt} (hok : deleteMessage s caller messageId = Except.ok s')
    (hinv : OwnershipInv s) : OwnershipInv s' := by
  obtain ⟨hlt, hown, hact, htot, hmsg, husr, -⟩ := deleteMessage_ok_inv hok
  intro o
  refine ⟨fun id => ?_, ?_⟩
  · simp only [husr, htot, hmsg]
    by_cases hid : id = messageId
    · subst hid
      rw [if_pos rfl]
      exact (hinv o).1 id
    · rw [if_neg hid]
      exact (hinv o).1 id
  · simp only [husr]
    exact (hinv o).2

lemma ownershipInv_step {s s' : NeonCrypt} (hstep : Step s s')
    (hinv : OwnershipInv s) : OwnershipInv s' := by
  cases hstep
  case submit hok => exact ownershipInv_submit hok hinv
  case delete hok => exact ownershipInv_delete hok hinv

lemma reachable_ownershipInv {s : NeonCrypt} (h : Reachable s) :
    OwnershipInv s := by
  induction h with
  | init => exact ownershipInv_init
  | step hr hstep ih => exact ownershipInv_step hstep ih

/-- Helper: in-range `getD` indexing lands on a list member. -/
lemma getD_mem_of_lt (l : List Nat) (i : Nat) (h : i < l.length) (d : Nat) :
    l.getD i d ∈ l := by
  induction l generalizing i with
  | nil => simp at h
  | cons a rest ih =>
    cases i with
    | zero => exact List.mem_cons_self _ _
    | succ n =>
      rw [List.getD_cons_succ]
      exact List.mem_cons_of_mem _ (ih n (by simpa using h))

/-- C8: in every reachable state, owner `o`'s index lists exactly the ids
of records whose stored owner is `o` (no cross-owner leakage, deleted ids
included, since membership depends only on the immutable `sender` field),
strictly increasing (creation order) hence duplicate-free;
`getMessageCount` always equals the index length and is `0` for an owner
owning no record. -/
theorem ownership_integrity (s : NeonCrypt) (hs : Reachable s) (o : Nat) :
    (∀ id, id ∈ getUserMessages s o ↔
      id < getTotalMessages s ∧ (s.messages id).sender = o) ∧
    (getUserMessages s o).Sorted (· < ·) ∧
    (getUserMessages s o).Nodup ∧
    getMessageCount s o = (getUserMessages s o).length ∧
    ((∀ id, id < getTotalMessages s → (s.messages id).sender ≠ o) →
      getMessageCount s o = 0) := by
  obtain ⟨hmem, hsort⟩ := reachable_ownershipInv hs o
  refine ⟨hmem, hsort, hsort.imp (fun hlt => Nat.ne_of_lt hlt), rfl,
    fun hnone => ?_⟩
  have hnil : s.userMessages o = [] := by
    refine List.eq_nil_iff_forall_not_mem.mpr fun a ha => ?_
    obtain ⟨hlt, hs2⟩ := (hmem a).mp ha
    exact hnone a hlt hs2
  simp [getMessageCount, hnil]

/-- C8 witness: the integrity facts evaluated on the concrete reachable
state `exS4` for owner 7 (two records, one soft-deleted) and owner 9
(no records). -/
theorem ownership_integrity_witness :
    (0 ∈ getUserMessages exS4 7 ↔
      0 < getTotalMessages exS4 ∧ (exS4.messages 0).sender = 7) ∧
    (getUserMessages exS4 7).Sorted (· < ·) ∧
    (getUserMessages exS4 7).Nodup ∧
    getMessageCount exS4 7 = (getUserMessages exS4 7).length ∧
    getMessageCount exS4 9 = 0 := by
  obtain ⟨hmem, hsort, hnd, hcnt, -⟩ :=
    ownership_integrity exS4 reachable_exS4 7
  obtain ⟨-, -, -, -, hzero⟩ := ownership_integrity exS4 reachable_exS4 9
  exact ⟨hmem 0, hsort, hnd, hcnt, hzero (by decide)⟩

/-- C4: `getUserMessageMetadata` never fails (it is total), its three
columns have the same length as `getUserMessages`, and in every reachable
state row `i` agrees with `getMessage` applied to the i-th listed id:
`getMessage` succeeds there and its `timestamp` and `isActive` components
are exactly the row's entries, while the row's id column repeats the
listed id. -/
theorem metadata_get_equivalence (s : NeonCrypt) (hs : Reachable s) (o : Nat) :
    (getUserMessageMetadata s o).1.length = (getUserMessages s o).length ∧
    (getUserMessageMetadata s o).2.1.length = (getUserMessages s o).length ∧
    (getUserMessageMetadata s o).2.2.length = (getUserMessages s o).length ∧
    ∀ i, i < (getUserMessages s o).length →
      getMessage s ((getUserMessages s o).getD i 0) = Except.ok
        ((s.messages ((getUserMessages s o).getD i 0)).encryptedContent,
         (getUserMessageMetadata s o).1.getD i 0,
         (s.messages ((getUserMessages s o).getD i 0)).sender,
         (getUserMessageMetadata s o).2.2.getD i false) ∧
      (getUserMessageMetadata s o).2.1.getD i 0
          = (getUserMessages s o).getD i 0 := by
  obtain ⟨hmem, -⟩ := reachable_ownershipInv hs o
  refine ⟨by simp [getUserMessageMetadata, getUserMessages],
    by simp [getUserMessageMetadata, getUserMessages],
    by simp [getUserMessageMetadata, getUserMessages],
    fun i hi => ?_⟩
  have hin : (s.userMessages o).getD i 0 ∈ s.userMessages o :=
    getD_mem_of_lt _ i hi 0
  obtain ⟨hlt, -⟩ := (hmem _).mp hin
  have hts : ((s.userMessages o).map
      fun msgId => (s.messages msgId).timestamp).getD i 0
      = (s.messages ((s.userMessages o).getD i 0)).timestamp :=
    getD_map_of_lt _ _ i hi 0
  have hac : ((s.userMessages o).map
      fun msgId => (s.messages msgId).isActive).getD i false
      = (s.messages ((s.userMessages o).getD i 0)).isActive :=
    getD_map_of_lt _ _ i hi false
  have hid : ((s.userMessages o).map fun msgId => msgId).getD i 0
      = (s.userMessages o).getD i 0 :=
    getD_map_of_lt _ _ i hi 0
  refine ⟨?_, hid⟩
  show getMessage s ((s.userMessages o).getD i 0) = _
  rw [getMessage, if_pos hlt]
  refine congrArg Except.ok ?_
  simp only [getUserMessageMetadata, getUserMessages]
  rw [hts, hac]

/-- C4 witness: the metadata rows of owner 7 in `exS4` agree with
`getMessage` at positions 0 and 1 (the second record is soft-deleted in
neither case hidden). -/
theorem metadata_get_equivalence_witness :
    (getUserMessageMetadata exS4 7).1.length
        = (getUserMessages exS4 7).length ∧
    getMessage exS4 ((getUserMessages exS4 7).getD 0 0) = Except.ok
      ((exS4.messages ((getUserMessages exS4 7).getD 0 0)).encryptedContent,
       (getUserMessageMetadata exS4 7).1.getD 0 0,
       (exS4.messages ((getUserMessages exS4 7).getD 0 0)).sender,
       (getUserMessageMetadata exS4 7).2.2.getD 0 false) ∧
    (getUserMessageMetadata exS4 7).2.1.getD 1 0
        = (getUserMessages exS4 7).getD 1 0 := by
  obtain ⟨hlen, -, -, hrow⟩ :=
    metadata_get_equivalence exS4 reachable_exS4 7
  exact ⟨hlen, (hrow 0 (by decide)).1, (hrow 1 (by decide)).2⟩

/-- Helper: over any run of create calls, the successful calls receive
the consecutive ids starting at the pre-run counter, and the counter
grows by exactly the number of successes. -/
lemma runCreates_totals (rs : List CreateReq) : ∀ s : NeonCrypt,
    assignedIds s rs
        = List.range' s.totalMessages (assignedIds s rs).length ∧
    (runCreates s rs).totalMessages
        = s.totalMessages + (assignedIds s rs).length := by
  induction rs with
  | nil => exact fun s => ⟨rfl, rfl⟩
  | cons r rest ih =>
    intro s
    cases hok : submitMessage s r.sender r.timestamp r.content r.proof with
    | ok p =>
      obtain ⟨mid, s1⟩ := p
      obtain ⟨hmid, htot, -, -, -, -⟩ := submitMessage_ok_inv hok
      subst hmid
      simp only [assignedIds, runCreates, hok]
      obtain ⟨ih1, ih2⟩ := ih s1
      rw [htot] at ih1 ih2
      constructor
      · rw [List.length_cons, List.range'_succ]
        exact congrArg _ ih1
      · rw [List.length_cons, ih2]
        omega
    | error e =>
      simp only [assignedIds, runCreates, hok]
      exact ih s

/-- C1: starting from the empty ledger, the successful creates of any
call sequence are assigned ids `0, 1, 2, …` in order (the id list is
`range n` for `n` successes) and `getTotalMessages` afterwards equals the
number of successes; moreover every successful create assigns
`id = pre-call totalCount`, increments the counter by exactly 1, stores
the new record (active, with the given content, timestamp and sender) at
that index, and appends the id to the caller's index. -/
theorem monotonic_dense_ids :
    (∀ rs : List CreateReq,
      assignedIds NeonCrypt.init rs
          = List.range (assignedIds NeonCrypt.init rs).length ∧
      getTotalMessages (runCreates NeonCrypt.init rs)
          = (assignedIds NeonCrypt.init rs).length) ∧
    (∀ (s : NeonCrypt) (sender timestamp encryptedContent : Nat)
        (inputProof : List Nat) (messageId : Nat) (s' : NeonCrypt),
      submitMessage s sender timestamp encryptedContent inputProof
          = Except.ok (messageId, s') →
      messageId = s.totalMessages ∧
      s'.totalMessages = s.totalMessages + 1 ∧
      s'.messages s.totalMessages
          = ⟨encryptedContent, timestamp, sender, true⟩ ∧
      s'.userMessages sender = s.userMessages sender ++ [s.totalMessages]) := by
  constructor
  · intro rs
    obtain ⟨h1, h2⟩ := runCreates_totals rs NeonCrypt.init
    refine ⟨?_, ?_⟩
    · rw [List.range_eq_range']
      exact h1
    · show (runCreates NeonCrypt.init rs).totalMessages = _
      rw [h2]
      simp [NeonCrypt.init]
  · intro s sender timestamp encryptedContent inputProof messageId s' hok
    obtain ⟨hmid, htot, hmsg, husr, -, -⟩ := submitMessage_ok_inv hok
    refine ⟨hmid, htot, ?_, ?_⟩
    · rw [hmsg]
      simp
    · rw [husr]
      simp

/-- C1 witness: a four-call sequence whose second call has an empty
proof assigns ids `[0, 1, 2]` to the three successes and ends with
`totalCount = 3`; the per-call part evaluated on the first create. -/
theorem monotonic_dense_ids_witness :
    assignedIds NeonCrypt.init [exReq1, ⟨9, 150, 51, []⟩, exReq2, exReq3]
        = [0, 1, 2] ∧
    getTotalMessages
      (runCreates NeonCrypt.init [exReq1, ⟨9, 150, 51, []⟩, exReq2, exReq3])
        = 3 ∧
    exS1.messages 0 = ⟨42, 100, 7, true⟩ := by
  obtain ⟨h1, h2⟩ :=
    monotonic_dense_ids.1 [exReq1, ⟨9, 150, 51, []⟩, exReq2, exReq3]
  obtain ⟨-, -, h3, -⟩ :=
    monotonic_dense_ids.2 NeonCrypt.init 7 100 42 [1] 0 exS1 rfl
  exact ⟨h1, h2, h3⟩

/-- C7: across any successful mutating call (the only operations that
produce a new state — every read is a `view` returning no state), the
counter never shrinks; an existing inactive record stays inactive; an
existing record's flag drops from `true` to `false` only when the call
was precisely a successful `deleteMessage` of that id; and a previously
nonexistent id that exists afterwards was created, active, by precisely a
successful `submitMessage` that assigned it — so each record runs
`nonexistent → active → inactive` with `inactive` terminal. -/
theorem active_flag_monotone (s s' : NeonCrypt) (hs : Reachable s)
    (hstep : Step s s') (id : Nat) :
    s.totalMessages ≤ s'.totalMessages ∧
    (id < s.totalMessages → (s.messages id).isActive = false →
      (s'.messages id).isActive = false) ∧
    (id < s.totalMessages → (s.messages id).isActive = true →
      (s'.messages id).isActive = false →
      ∃ caller, deleteMessage s caller id = Except.ok s') ∧
    (s.totalMessages ≤ id → id < s'.totalMessages →
      (s'.messages id).isActive = true ∧
      ∃ sender timestamp encryptedContent inputProof,
        submitMessage s sender timestamp encryptedContent inputProof
          = Except.ok (id, s')) := by
  cases hstep
  case submit =>
    rename_i sender timestamp encryptedContent inputProof messageId hok
    obtain ⟨hmid, htot, hmsg, husr, -, -⟩ := submitMessage_ok_inv hok
    subst hmid
    refine ⟨by omega, ?_, ?_, ?_⟩
    · intro hlt hfalse
      simp only [hmsg]
      rw [if_neg (Nat.ne_of_lt hlt)]
      exact hfalse
    · intro hlt htrue hfalse2
      simp only [hmsg] at hfalse2
      rw [if_neg (Nat.ne_of_lt hlt), htrue] at hfalse2
      exact absurd hfalse2 (by simp)
    · intro hge hlt2
      rw [htot] at hlt2
      have hid : id = s.totalMessages := by omega
      subst hid
      refine ⟨?_, sender, timestamp, encryptedContent, inputProof, hok⟩
      simp [hmsg]
  case delete =>
    rename_i caller messageId hok
    obtain ⟨hlt0, hown, hact, htot, hmsg, husr, -⟩ := deleteMessage_ok_inv hok
    refine ⟨Nat.le_of_eq htot.symm, ?_, ?_, ?_⟩
    · intro hlt hfalse
      by_cases hid : id = messageId
      · subst hid
        simp [hmsg]
      · simp only [hmsg]
        rw [if_neg hid]
        exact hfalse
    · intro hlt htrue hfalse2
      simp only [hmsg] at hfalse2
      by_cases hid : id = messageId
      · subst hid
        exact ⟨caller, hok⟩
      · rw [if_neg hid, htrue] at hfalse2
        exact absurd hfalse2 (by simp)
    · intro hge hlt2
      rw [htot] at hlt2
      exact absurd (Nat.lt_of_le_of_lt hge hlt2) (lt_irrefl _)

/-- `exS4` after owner 8 submits a fourth record (id 3). -/
def exS5 : NeonCrypt := runCreates exS4 [⟨8, 500, 60, [9]⟩]

/-- C7 witness: on the concrete step `exS4 → exS5` (a create), the
counter grows, the soft-deleted record 0 stays inactive, and the fresh
record 3 comes into existence active. -/
theorem active_flag_monotone_witness :
    exS4.totalMessages ≤ exS5.totalMessages ∧
    (exS5.messages 0).isActive = false ∧
    (exS5.messages 3).isActive = true := by
  have hstep : Step exS4 exS5 := Step.submit _ 8 500 60 [9] 3 _ rfl
  obtain ⟨hle, hmono, -, -⟩ :=
    active_flag_monotone exS4 exS5 reachable_exS4 hstep 0
  obtain ⟨-, -, -, hnew⟩ :=
    active_flag_monotone exS4 exS5 reachable_exS4 hstep 3
  exact ⟨hle, hmono (by decide) (by decide), (hnew (by decide) (by decide)).1⟩

end NeonCryptLedger
